import Mathlib

/-!
Verification of `src/team/merge-coordinator.ts`.

The coordinator shells out to a git backend (`execFileSync`).  We embed it
shallowly: the backend is an oracle (`GitBackend`) giving each command's
outcome, a throwing command is an `Option`/`Bool` failure value, and every
embedded function additionally returns the trace of backend commands it
issued (`List GitOp`), so that frame/effect claims can be stated.

JavaScript string operations used by the source (`String.prototype.trim`,
`String.prototype.split` with a one-character separator, truthiness of
strings) are modelled at the character-list level (`jsTrim`, `jsSplit`).
-/

/-- Whitespace stripped by `String.prototype.trim` (the characters relevant
to git command output). -/
def jsIsWhitespace (c : Char) : Bool :=
  c = ' ' || c = '\t' || c = '\n' || c = '\r'

/-- Model of JS `s.trim()`: strip whitespace from both ends. -/
def jsTrim (s : String) : String :=
  String.mk (((s.data.dropWhile jsIsWhitespace).reverse.dropWhile jsIsWhitespace).reverse)

/-- Helper for `jsSplit`: split a character list at every occurrence of
`sep`, accumulating the current segment (reversed) in `acc`.  Like JS
`split`, it yields a trailing empty segment for a trailing separator and
`[[]]` on empty input. -/
def splitOnCharAux (sep : Char) : List Char → List Char → List (List Char)
  | [], acc => [acc.reverse]
  | c :: cs, acc =>
    if c = sep then acc.reverse :: splitOnCharAux sep cs []
    else splitOnCharAux sep cs (c :: acc)

/-- Model of JS `s.split(sep)` for a one-character separator. -/
def jsSplit (s : String) (sep : Char) : List String :=
  (splitOnCharAux sep s.data []).map String.mk

/-- One backend (git) command invocation, as recorded in a trace. -/
inductive GitOp where
  | mergeBase (a b : String)
  | diffNameOnly (fromCommit toRef : String)
  | checkout (ref : String)
  | merge (message branch : String)
  | revParseHead
  | mergeAbort
  | revParseAbbrevHead
deriving DecidableEq, Repr

/-- Which backend commands mutate the repository working tree / checked-out
branch (per the backend command contract: `merge-base`, `diff`, `rev-parse`
are queries; `checkout`, `merge`, `merge --abort` mutate). -/
def GitOp.mutatesTree : GitOp → Bool
  | .checkout _ => true
  | .merge _ _ => true
  | .mergeAbort => true
  | _ => false

/-- Oracle for backend command outcomes.  `none` / `false` models the
command throwing (`execFileSync` non-zero exit); `some s` is the command's
raw stdout. -/
structure GitBackend where
  mergeBase : String → String → Option String
  diffNameOnly : String → String → Option String
  checkout : String → Bool
  merge : String → String → Bool
  revParseHead : Option String
  mergeAbort : Bool
  revParseAbbrevHead : Option String

/-- `MergeResult` of the source (`mergeCommit?` optional field). -/
structure MergeResult where
  workerName : String
  branch : String
  success : Bool
  conflicts : List String
  mergeCommit : Option String
deriving DecidableEq, Repr

/-- `checkMergeConflicts` of the source: find the merge base, diff both
sides against it, and return the worker-side changed files also changed on
the base side.  Any backend failure (the `catch`) yields `[]`.  Also
returns the trace of backend commands issued. -/
def checkMergeConflicts (be : GitBackend) (workerBranch baseBranch : String) :
    List String × List GitOp :=
  let op1 := GitOp.mergeBase baseBranch workerBranch
  match be.mergeBase baseBranch workerBranch with
  | none => ([], [op1])
  | some mbRaw =>
    let mb := jsTrim mbRaw
    let op2 := GitOp.diffNameOnly mb baseBranch
    match be.diffNameOnly mb baseBranch with
    | none => ([], [op1, op2])
    | some baseRaw =>
      let baseDiff := jsTrim baseRaw
      let op3 := GitOp.diffNameOnly mb workerBranch
      match be.diffNameOnly mb workerBranch with
      | none => ([], [op1, op2, op3])
      | some workerRaw =>
        let workerDiff := jsTrim workerRaw
        if baseDiff = "" || workerDiff = "" then ([], [op1, op2, op3])
        else
          let baseFiles := (jsSplit baseDiff '\n').filter (fun f => f != "")
          let workerFiles := (jsSplit workerDiff '\n').filter (fun f => f != "")
          (workerFiles.filter (fun f => baseFiles.contains f), [op1, op2, op3])

/-- The merge commit message generated by the source
(`Merge ${workerBranch} into ${baseBranch}`). -/
def mergeMessage (workerBranch baseBranch : String) : String :=
  "Merge " ++ workerBranch ++ " into " ++ baseBranch

/-- `workerBranch.split('/').pop() || workerBranch` of the source: the last
`/`-separated segment, or the whole branch name when that segment is the
empty string (no separator at all, or a trailing separator). -/
def workerNameOf (workerBranch : String) : String :=
  let popped := (jsSplit workerBranch '/').getLastD ""
  if popped = "" then workerBranch else popped

/-- The `catch` block of `mergeWorkerBranch`: attempt `git merge --abort`
(its own failure swallowed — the oracle's `mergeAbort` outcome is never
consulted), run `checkMergeConflicts`, and report failure with no
`mergeCommit`. -/
def mergeFailure (be : GitBackend) (workerBranch baseBranch : String)
    (opsSoFar : List GitOp) : MergeResult × List GitOp :=
  let det := checkMergeConflicts be workerBranch baseBranch
  ({ workerName := workerNameOf workerBranch, branch := workerBranch,
     success := false, conflicts := det.1, mergeCommit := none },
   opsSoFar ++ GitOp.mergeAbort :: det.2)

/-- `mergeWorkerBranch` of the source: checkout the base branch, merge the
worker branch with `--no-ff`, resolve the new HEAD; on any failure abort
and report via `mergeFailure`. -/
def mergeWorkerBranch (be : GitBackend) (workerBranch baseBranch : String) :
    MergeResult × List GitOp :=
  if be.checkout baseBranch then
    if be.merge (mergeMessage workerBranch baseBranch) workerBranch then
      match be.revParseHead with
      | some raw =>
        ({ workerName := workerNameOf workerBranch, branch := workerBranch,
           success := true, conflicts := [], mergeCommit := some (jsTrim raw) },
         [GitOp.checkout baseBranch,
          GitOp.merge (mergeMessage workerBranch baseBranch) workerBranch,
          GitOp.revParseHead])
      | none =>
        mergeFailure be workerBranch baseBranch
          [GitOp.checkout baseBranch,
           GitOp.merge (mergeMessage workerBranch baseBranch) workerBranch,
           GitOp.revParseHead]
    else
      mergeFailure be workerBranch baseBranch
        [GitOp.checkout baseBranch,
         GitOp.merge (mergeMessage workerBranch baseBranch) workerBranch]
  else
    mergeFailure be workerBranch baseBranch [GitOp.checkout baseBranch]

/-- Modelled from the spec: the `WorktreeRegistry` collaborator interface
(`listTeamWorktrees(teamName, repoRoot) → ordered list of
\x7b branch, workerName, path \x7d`); `git-worktree.ts` is not part of the
sources under verification. -/
structure Worktree where
  branch : String
  workerName : String
  path : String
deriving DecidableEq, Repr

/-- The `for … of worktrees` loop of `mergeAllWorkerBranches`: merge each
branch in order, push the result, and break after the first failure. -/
def mergeLoop (be : GitBackend) (base : String) :
    List Worktree → List MergeResult × List GitOp
  | [] => ([], [])
  | wt :: rest =>
    let r := mergeWorkerBranch be wt.branch base
    if r.1.success then
      let rs := mergeLoop be base rest
      (r.1 :: rs.1, r.2 ++ rs.2)
    else ([r.1], r.2)

/-- Base-branch resolution of `mergeAllWorkerBranches`
(`baseBranch || execFileSync('git', ['rev-parse', '--abbrev-ref', 'HEAD'] …)`):
a missing or empty (falsy) `baseBranch` falls back to the current branch
name; `none` means the fallback command threw. -/
def resolveBase (be : GitBackend) (baseBranch : Option String) :
    Option String × List GitOp :=
  match baseBranch with
  | some s =>
    if s = "" then (be.revParseAbbrevHead.map jsTrim, [GitOp.revParseAbbrevHead])
    else (some s, [])
  | none => (be.revParseAbbrevHead.map jsTrim, [GitOp.revParseAbbrevHead])

/-- `mergeAllWorkerBranches` of the source.  The registry is the
`listTeamWorktrees` collaborator.  A `none` first component models the one
uncaught path (base-branch resolution throwing). -/
def mergeAllWorkerBranches (be : GitBackend) (registry : String → List Worktree)
    (teamName : String) (baseBranch : Option String) :
    Option (List MergeResult) × List GitOp :=
  let worktrees := registry teamName
  if worktrees.length = 0 then (some [], [])
  else
    let rb := resolveBase be baseBranch
    match rb.1 with
    | none => (none, rb.2)
    | some base =>
      let run := mergeLoop be base worktrees
      (some run.1, rb.2 ++ run.2)

/-- The changed-file list the source parses out of one
`git diff --name-only` invocation: trim the output, split on newlines,
drop empty lines (`.split('\n').filter(f => f)`). -/
def parseChanged (raw : String) : List String :=
  (jsSplit (jsTrim raw) '\n').filter (fun f => f != "")

/-- The substring of `s` after the last `/` — formalised independently of
the source's `split`/`pop` as the longest `/`-free suffix.  When `s`
contains no `/` this is all of `s`. -/
def suffixAfterLastSlash (s : String) : String :=
  String.mk ((s.data.reverse.takeWhile (fun c => c != '/')).reverse)

/-- Specification-side description of the batch outcome: the result list
truncated at (and including) the first entry with `success = false`. -/
def truncAtFail : List MergeResult → List MergeResult
  | [] => []
  | r :: rs => if r.success then r :: truncAtFail rs else [r]

/-- Concrete backend used for witnesses: every query succeeds (merge base
`abc123`; base side changed `README.md`, any other side changed
`README.md` and `src/x.ts`), checkout always succeeds, merging any branch
except `team/w2` succeeds, and HEAD resolves to `cafe1234`. -/
def beDemo : GitBackend where
  mergeBase := fun _ _ => some "abc123"
  diffNameOnly := fun _ toRef =>
    if toRef = "main" then some "README.md" else some "README.md\nsrc/x.ts"
  checkout := fun _ => true
  merge := fun _ branch => branch != "team/w2"
  revParseHead := some "cafe1234"
  mergeAbort := true
  revParseAbbrevHead := some "main"

/-- Concrete backend for witnesses where every command fails. -/
def beDown : GitBackend where
  mergeBase := fun _ _ => none
  diffNameOnly := fun _ _ => none
  checkout := fun _ => false
  merge := fun _ _ => false
  revParseHead := none
  mergeAbort := false
  revParseAbbrevHead := none

/-- Concrete backend for witnesses where checkout and merge succeed but
HEAD resolution fails. -/
def beNoHead : GitBackend where
  mergeBase := fun _ _ => none
  diffNameOnly := fun _ _ => none
  checkout := fun _ => true
  merge := fun _ _ => true
  revParseHead := none
  mergeAbort := true
  revParseAbbrevHead := some "main"

/-- Concrete registry for witnesses: team `alpha` has three worker
branches, other teams none. -/
def regDemo : String → List Worktree := fun t =>
  if t = "alpha" then
    [{ branch := "team/w1", workerName := "w1", path := "p1" },
     { branch := "team/w2", workerName := "w2", path := "p2" },
     { branch := "team/w3", workerName := "w3", path := "p3" }]
  else []

example : jsSplit "a/" '/' = ["a", ""] := by decide

example : jsSplit "" '/' = [""] := by decide

example : workerNameOf "team/alpha/w1" = "w1" := by decide

example : workerNameOf "plain" = "plain" := by decide

example : workerNameOf "a/" = "a/" := by decide

example : jsTrim "  x\n" = "x" := by decide

/-- C1: with all three backend queries succeeding, `checkMergeConflicts`
returns the worker-side changed-file list filtered to members of the
base-side changed-file list (the ordered intersection, worker order); in
particular it is empty when the two lists are disjoint (which covers either
list being empty). -/
theorem checkMergeConflicts_intersection
    (be : GitBackend) (workerBranch baseBranch mb braw wraw : String)
    (baseChanged workerChanged : List String)
    (h1 : be.mergeBase baseBranch workerBranch = some mb)
    (h2 : be.diffNameOnly (jsTrim mb) baseBranch = some braw)
    (h3 : be.diffNameOnly (jsTrim mb) workerBranch = some wraw)
    (hb : parseChanged braw = baseChanged)
    (hw : parseChanged wraw = workerChanged) :
    (checkMergeConflicts be workerBranch baseBranch).1 =
        workerChanged.filter (fun f => baseChanged.contains f) ∧
    ((∀ f ∈ workerChanged, f ∉ baseChanged) →
        (checkMergeConflicts be workerBranch baseBranch).1 = []) := by
  subst hb hw
  have hmain : (checkMergeConflicts be workerBranch baseBranch).1 =
      (parseChanged wraw).filter (fun f => (parseChanged braw).contains f) := by
    by_cases hb0 : jsTrim braw = ""
    · have hbase : parseChanged braw = [] := by
        unfold parseChanged
        rw [hb0]
        decide
      rw [hbase]
      simp only [checkMergeConflicts, h1, h2, h3, hb0]
      simp [List.filter_eq_nil_iff]
    · by_cases hw0 : jsTrim wraw = ""
      · have hwork : parseChanged wraw = [] := by
          unfold parseChanged
          rw [hw0]
          decide
        rw [hwork]
        simp only [checkMergeConflicts, h1, h2, h3, hw0]
        simp
      · simp only [checkMergeConflicts, h1, h2, h3]
        rw [if_neg]
        · rfl
        · simp [hb0, hw0]
  refine ⟨hmain, fun hdisj => ?_⟩
  rw [hmain]
  rw [List.filter_eq_nil_iff]
  intro f hf
  simpa using hdisj f hf

/-- C5: whenever any of the three backend queries of `checkMergeConflicts`
fails (merge-base not found, or either diff failing), the function returns
the empty sequence — the failure is absorbed by the `catch`, never
propagated. -/
theorem checkMergeConflicts_backend_failure
    (be : GitBackend) (workerBranch baseBranch : String)
    (h : be.mergeBase baseBranch workerBranch = none ∨
         (∃ mb, be.mergeBase baseBranch workerBranch = some mb ∧
            be.diffNameOnly (jsTrim mb) baseBranch = none) ∨
         (∃ mb braw, be.mergeBase baseBranch workerBranch = some mb ∧
            be.diffNameOnly (jsTrim mb) baseBranch = some braw ∧
            be.diffNameOnly (jsTrim mb) workerBranch = none)) :
    (checkMergeConflicts be workerBranch baseBranch).1 = [] := by
  rcases h with h0 | ⟨mb, h1, h2⟩ | ⟨mb, braw, h1, h2, h3⟩
  · simp [checkMergeConflicts, h0]
  · simp [checkMergeConflicts, h1, h2]
  · simp [checkMergeConflicts, h1, h2, h3]

/-- The trace of `checkMergeConflicts` is always a prefix of
merge-base / diff-base / diff-worker, for the trimmed merge-base `mb`. -/
theorem checkMergeConflicts_trace_shape
    (be : GitBackend) (workerBranch baseBranch : String) :
    ∃ mb,
      (checkMergeConflicts be workerBranch baseBranch).2 =
        [GitOp.mergeBase baseBranch workerBranch] ∨
      (checkMergeConflicts be workerBranch baseBranch).2 =
        [GitOp.mergeBase baseBranch workerBranch,
         GitOp.diffNameOnly mb baseBranch] ∨
      (checkMergeConflicts be workerBranch baseBranch).2 =
        [GitOp.mergeBase baseBranch workerBranch,
         GitOp.diffNameOnly mb baseBranch,
         GitOp.diffNameOnly mb workerBranch] := by
  cases hm : be.mergeBase baseBranch workerBranch with
  | none =>
    refine ⟨"", Or.inl ?_⟩
    simp [checkMergeConflicts, hm]
  | some mbRaw =>
    cases hd1 : be.diffNameOnly (jsTrim mbRaw) baseBranch with
    | none =>
      refine ⟨jsTrim mbRaw, Or.inr (Or.inl ?_)⟩
      simp [checkMergeConflicts, hm, hd1]
    | some baseRaw =>
      cases hd2 : be.diffNameOnly (jsTrim mbRaw) workerBranch with
      | none =>
        refine ⟨jsTrim mbRaw, Or.inr (Or.inr ?_)⟩
        simp [checkMergeConflicts, hm, hd1, hd2]
      | some workerRaw =>
        refine ⟨jsTrim mbRaw, Or.inr (Or.inr ?_)⟩
        simp only [checkMergeConflicts, hm, hd1, hd2]
        split <;> rfl

/-- C6: every backend command issued by `checkMergeConflicts` is a
read-only query — a `merge-base` or a `diff --name-only` — and never a
mutating operation (`checkout`, `merge`, `merge --abort`); hence a detect
call leaves the working tree and the checked-out branch unchanged. -/
theorem checkMergeConflicts_readonly
    (be : GitBackend) (workerBranch baseBranch : String) :
    ∀ op ∈ (checkMergeConflicts be workerBranch baseBranch).2,
      op.mutatesTree = false ∧
      ((∃ a b, op = GitOp.mergeBase a b) ∨
       (∃ c r, op = GitOp.diffNameOnly c r)) := by
  obtain ⟨mb, h | h | h⟩ :=
    checkMergeConflicts_trace_shape be workerBranch baseBranch
  all_goals rw [h]; intro op hop
  · rw [List.mem_singleton] at hop
    subst hop
    exact ⟨rfl, Or.inl ⟨_, _, rfl⟩⟩
  · rcases List.mem_cons.mp hop with rfl | hop
    · exact ⟨rfl, Or.inl ⟨_, _, rfl⟩⟩
    · rw [List.mem_singleton] at hop
      subst hop
      exact ⟨rfl, Or.inr ⟨_, _, rfl⟩⟩
  · rcases List.mem_cons.mp hop with rfl | hop
    · exact ⟨rfl, Or.inl ⟨_, _, rfl⟩⟩
    · rcases List.mem_cons.mp hop with rfl | hop
      · exact ⟨rfl, Or.inr ⟨_, _, rfl⟩⟩
      · rw [List.mem_singleton] at hop
        subst hop
        exact ⟨rfl, Or.inr ⟨_, _, rfl⟩⟩

/-- Both paths of `mergeWorkerBranch` report the same worker identity,
computed by `workerNameOf` before any backend command runs. -/
theorem mergeWorkerBranch_workerName_any
    (be : GitBackend) (workerBranch baseBranch : String) :
    (mergeWorkerBranch be workerBranch baseBranch).1.workerName =
      workerNameOf workerBranch := by
  unfold mergeWorkerBranch mergeFailure
  split
  · split
    · cases be.revParseHead <;> rfl
    · rfl
  · rfl

/-- C3: provided the backend's `rev-parse HEAD` output never trims to the
empty string (it is a commit id), every result of `mergeWorkerBranch`
satisfies the `MergeResult` invariants: on success `mergeCommit` is present
and non-empty and `conflicts` is empty; on failure `mergeCommit` is
absent. -/
theorem mergeWorkerBranch_result_invariant
    (be : GitBackend) (workerBranch baseBranch : String)
    (hne : ∀ s, be.revParseHead = some s → jsTrim s ≠ "") :
    ((mergeWorkerBranch be workerBranch baseBranch).1.success = true →
       (mergeWorkerBranch be workerBranch baseBranch).1.conflicts = [] ∧
       ∃ c, (mergeWorkerBranch be workerBranch baseBranch).1.mergeCommit = some c ∧
            c ≠ "") ∧
    ((mergeWorkerBranch be workerBranch baseBranch).1.success = false →
       (mergeWorkerBranch be workerBranch baseBranch).1.mergeCommit = none) := by
  unfold mergeWorkerBranch mergeFailure
  split
  · split
    · cases hr : be.revParseHead with
      | some raw =>
        refine ⟨fun _ => ⟨rfl, jsTrim raw, rfl, hne raw hr⟩, fun hfalse => ?_⟩
        simp at hfalse
      | none => simp
    · simp
  · simp

/-- C4: when the checkout step or the merge step fails, `mergeWorkerBranch`
records a `merge --abort` attempt, returns a structured `success=false`
result with `mergeCommit` absent and `conflicts` from the conflict
detector, and the outcome of the abort itself is irrelevant (swallowed):
the whole call is insensitive to the oracle's `mergeAbort` component, and
no exception escapes — a result is always returned. -/
theorem mergeWorkerBranch_failure_cleanup
    (be : GitBackend) (workerBranch baseBranch : String)
    (hfail : be.checkout baseBranch = false ∨
             be.merge (mergeMessage workerBranch baseBranch) workerBranch = false) :
    GitOp.mergeAbort ∈ (mergeWorkerBranch be workerBranch baseBranch).2 ∧
    (mergeWorkerBranch be workerBranch baseBranch).1.success = false ∧
    (mergeWorkerBranch be workerBranch baseBranch).1.mergeCommit = none ∧
    (mergeWorkerBranch be workerBranch baseBranch).1.conflicts =
      (checkMergeConflicts be workerBranch baseBranch).1 ∧
    (∀ x, mergeWorkerBranch { be with mergeAbort := x } workerBranch baseBranch =
          mergeWorkerBranch be workerBranch baseBranch) := by
  have habort : ∀ x,
      mergeWorkerBranch { be with mergeAbort := x } workerBranch baseBranch =
        mergeWorkerBranch be workerBranch baseBranch := by
    intro x
    cases be
    rfl
  rcases hfail with hc | hm
  · refine ⟨?_, ?_, ?_, ?_, habort⟩ <;> simp [mergeWorkerBranch, mergeFailure, hc]
  · by_cases hc : be.checkout baseBranch
    · refine ⟨?_, ?_, ?_, ?_, habort⟩ <;>
        simp [mergeWorkerBranch, mergeFailure, hc, hm]
    · refine ⟨?_, ?_, ?_, ?_, habort⟩ <;>
        simp [mergeWorkerBranch, mergeFailure, hc]

/-- C9: `mergeWorkerBranch` succeeds exactly when all three backend steps
succeed — checkout, merge, and resolving the new HEAD; and a HEAD-resolution
failure after a successful merge takes the same abort-and-detect failure
path as a checkout or merge failure. -/
theorem mergeWorkerBranch_success_iff
    (be : GitBackend) (workerBranch baseBranch : String) :
    ((mergeWorkerBranch be workerBranch baseBranch).1.success = true ↔
      be.checkout baseBranch = true ∧
      be.merge (mergeMessage workerBranch baseBranch) workerBranch = true ∧
      be.revParseHead ≠ none) ∧
    (be.checkout baseBranch = true →
     be.merge (mergeMessage workerBranch baseBranch) workerBranch = true →
     be.revParseHead = none →
       (mergeWorkerBranch be workerBranch baseBranch).1.success = false ∧
       (mergeWorkerBranch be workerBranch baseBranch).1.mergeCommit = none ∧
       GitOp.mergeAbort ∈ (mergeWorkerBranch be workerBranch baseBranch).2 ∧
       (mergeWorkerBranch be workerBranch baseBranch).1.conflicts =
         (checkMergeConflicts be workerBranch baseBranch).1) := by
  by_cases hc : be.checkout baseBranch
  · by_cases hm : be.merge (mergeMessage workerBranch baseBranch) workerBranch
    · cases hr : be.revParseHead with
      | some raw =>
        constructor
        · simp [mergeWorkerBranch, hc, hm, hr]
        · intro _ _ hnone
          simp at hnone
      | none =>
        constructor
        · simp [mergeWorkerBranch, mergeFailure, hc, hm, hr]
        · intro _ _ _
          refine ⟨?_, ?_, ?_, ?_⟩ <;>
            simp [mergeWorkerBranch, mergeFailure, hc, hm, hr]
    · constructor
      · simp [mergeWorkerBranch, mergeFailure, hc, hm]
      · intro _ hm2
        rw [hm2] at hm
        exact absurd rfl hm
  · constructor
    · simp [mergeWorkerBranch, mergeFailure, hc]
    · intro hc2
      rw [hc2] at hc
      exact absurd rfl hc

theorem takeWhile_append_of_all {α : Type} (p : α → Bool) (l1 l2 : List α)
    (h : ∀ a ∈ l1, p a = true) :
    (l1 ++ l2).takeWhile p = l1 ++ l2.takeWhile p := by
  induction l1 with
  | nil => simp
  | cons a l ih =>
    have ha : p a = true := h a (List.mem_cons_self a l)
    simp only [List.cons_append, List.takeWhile_cons, ha, if_true]
    rw [ih fun b hb => h b (List.mem_cons_of_mem a hb)]

theorem takeWhile_append_of_mem_neg {α : Type} (p : α → Bool) (l1 l2 : List α)
    (h : ∃ a ∈ l1, p a = false) :
    (l1 ++ l2).takeWhile p = l1.takeWhile p := by
  induction l1 with
  | nil =>
    rcases h with ⟨a, ha, _⟩
    exact absurd ha (List.not_mem_nil a)
  | cons a l ih =>
    by_cases hpa : p a = true
    · have hl : ∃ b ∈ l, p b = false := by
        rcases h with ⟨b, hb, hpb⟩
        rcases List.mem_cons.mp hb with rfl | hb
        · rw [hpa] at hpb
          cases hpb
        · exact ⟨b, hb, hpb⟩
      simp only [List.cons_append, List.takeWhile_cons, hpa, if_true, ih hl]
    · rw [Bool.not_eq_true] at hpa
      simp only [List.cons_append, List.takeWhile_cons, hpa]
      simp

theorem splitOnCharAux_ne_nil (sep : Char) (l acc : List Char) :
    splitOnCharAux sep l acc ≠ [] := by
  induction l generalizing acc with
  | nil => simp [splitOnCharAux]
  | cons c cs ih =>
    unfold splitOnCharAux
    split
    · simp
    · exact ih _

theorem getLastD_congr {α : Type} (l : List α) (h : l ≠ []) (d d' : α) :
    l.getLastD d = l.getLastD d' := by
  cases l with
  | nil => exact absurd rfl h
  | cons a as => rw [List.getLastD_cons, List.getLastD_cons]

theorem getLastD_map {α β : Type} (f : α → β) (l : List α) (d : α) :
    (l.map f).getLastD (f d) = f (l.getLastD d) := by
  induction l generalizing d with
  | nil => rfl
  | cons a as ih =>
    rw [List.map_cons, List.getLastD_cons, List.getLastD_cons]
    exact ih a

/-- The last segment produced by `splitOnCharAux` is the suffix after the
last separator when one occurs in `l`, and otherwise the pending
accumulator followed by `l`. -/
theorem splitOnCharAux_getLastD (sep : Char) (l acc : List Char) :
    (splitOnCharAux sep l acc).getLastD [] =
      if sep ∈ l then (l.reverse.takeWhile (fun c => c != sep)).reverse
      else acc.reverse ++ l := by
  induction l generalizing acc with
  | nil => simp [splitOnCharAux]
  | cons c cs ih =>
    by_cases hc : c = sep
    · subst hc
      have hstep : splitOnCharAux c (c :: cs) acc =
          acc.reverse :: splitOnCharAux c cs [] := by
        simp [splitOnCharAux]
      rw [hstep, List.getLastD_cons,
        getLastD_congr _ (splitOnCharAux_ne_nil c cs []) acc.reverse [],
        ih]
      have hmem : c ∈ c :: cs := List.mem_cons_self c cs
      rw [if_pos hmem]
      by_cases hcs : c ∈ cs
      · rw [if_pos hcs, List.reverse_cons]
        rw [takeWhile_append_of_mem_neg _ cs.reverse [c]
          ⟨c, List.mem_reverse.mpr hcs, by simp⟩]
      · rw [if_neg hcs, List.reverse_cons]
        rw [takeWhile_append_of_all _ cs.reverse [c]
          (fun a ha => by
            have : a ≠ c := fun h => hcs (h ▸ List.mem_reverse.mp ha)
            simpa using this)]
        simp
    · have hstep : splitOnCharAux sep (c :: cs) acc =
          splitOnCharAux sep cs (c :: acc) := by
        have hrfl : splitOnCharAux sep (c :: cs) acc =
            if c = sep then acc.reverse :: splitOnCharAux sep cs []
            else splitOnCharAux sep cs (c :: acc) := rfl
        rw [hrfl, if_neg hc]
      rw [hstep, ih]
      have hmem : (sep ∈ c :: cs) ↔ sep ∈ cs := by
        constructor
        · intro h
          rcases List.mem_cons.mp h with h | h
          · exact absurd h.symm hc
          · exact h
        · exact fun h => List.mem_cons_of_mem c h
      by_cases hcs : sep ∈ cs
      · rw [if_pos hcs, if_pos (hmem.mpr hcs), List.reverse_cons]
        rw [takeWhile_append_of_mem_neg _ cs.reverse [c]
          ⟨sep, List.mem_reverse.mpr hcs, by simp⟩]
      · rw [if_neg hcs, if_neg (fun h => hcs (hmem.mp h))]
        simp

/-- The source's `split('/').pop() || workerBranch` equals the suffix after
the last `/` when that suffix is non-empty, and the whole string when it is
empty (no `/` at all, or a trailing `/`). -/
theorem workerNameOf_eq_suffix (w : String) :
    workerNameOf w =
      if suffixAfterLastSlash w = "" then w else suffixAfterLastSlash w := by
  unfold workerNameOf jsSplit suffixAfterLastSlash
  have hmap : ((splitOnCharAux '/' w.data []).map String.mk).getLastD "" =
      String.mk ((splitOnCharAux '/' w.data []).getLastD []) := by
    have h0 : ("" : String) = String.mk [] := rfl
    rw [h0, getLastD_map]
  rw [hmap, splitOnCharAux_getLastD]
  by_cases hin : '/' ∈ w.data
  · rw [if_pos hin]
  · rw [if_neg hin]
    have hall : ∀ a ∈ w.data.reverse, (fun c => c != '/') a = true := by
      intro a ha
      have hne : a ≠ '/' := fun h => hin (h ▸ List.mem_reverse.mp ha)
      simpa using hne
    have htake : w.data.reverse.takeWhile (fun c => c != '/') = w.data.reverse := by
      have h := takeWhile_append_of_all (fun c => c != '/') w.data.reverse [] hall
      simpa using h
    rw [htake, List.reverse_reverse]
    have hw : String.mk w.data = w := rfl
    rw [hw]
    simp

/-- C8 (counterexample): for the branch name `a/` — which does contain a
path separator — the `workerName` reported by `mergeWorkerBranch` is the
whole name `a/`, not the (empty) substring after the last separator. -/
theorem mergeWorkerBranch_workerName_claim_cex :
    ¬ ((mergeWorkerBranch beDemo "a/" "main").1.workerName =
        suffixAfterLastSlash "a/") := by decide

/-- C8 (amended): the `workerName` of any `mergeWorkerBranch` result is the
substring after the last `/` of the branch name when that substring is
non-empty, and the whole branch name when it is empty — that is, when the
branch name has no separator at all, or ends with a separator. -/
theorem mergeWorkerBranch_workerName_amended
    (be : GitBackend) (workerBranch baseBranch : String) :
    (mergeWorkerBranch be workerBranch baseBranch).1.workerName =
      if suffixAfterLastSlash workerBranch = "" then workerBranch
      else suffixAfterLastSlash workerBranch := by
  rw [mergeWorkerBranch_workerName_any]
  exact workerNameOf_eq_suffix workerBranch

theorem truncAtFail_length_le (l : List MergeResult) :
    (truncAtFail l).length ≤ l.length := by
  induction l with
  | nil => simp [truncAtFail]
  | cons r rs ih =>
    by_cases h : r.success
    · simpa [truncAtFail, h] using ih
    · simp [truncAtFail, h]

theorem truncAtFail_of_all_success (l : List MergeResult)
    (h : ∀ r ∈ l, r.success = true) : truncAtFail l = l := by
  induction l with
  | nil => rfl
  | cons r rs ih =>
    have hr : r.success = true := h r (List.mem_cons_self r rs)
    rw [truncAtFail, if_pos hr, ih fun x hx => h x (List.mem_cons_of_mem r hx)]

/-- The batch loop computes exactly the per-branch results truncated at the
first failure. -/
theorem mergeLoop_results (be : GitBackend) (base : String)
    (wts : List Worktree) :
    (mergeLoop be base wts).1 =
      truncAtFail (wts.map fun wt => (mergeWorkerBranch be wt.branch base).1) := by
  induction wts with
  | nil => rfl
  | cons wt rest ih =>
    simp only [mergeLoop, List.map_cons, truncAtFail]
    by_cases h : (mergeWorkerBranch be wt.branch base).1.success
    · simp [h, ih]
    · simp [h]

/-- The batch loop issues backend commands only for the worktrees that are
actually attempted: the prefix of the registry listing whose length is the
number of returned results. -/
theorem mergeLoop_trace (be : GitBackend) (base : String)
    (wts : List Worktree) :
    (mergeLoop be base wts).2 =
      ((wts.take (mergeLoop be base wts).1.length).map
        (fun wt => (mergeWorkerBranch be wt.branch base).2)).flatten := by
  induction wts with
  | nil => rfl
  | cons wt rest ih =>
    simp only [mergeLoop]
    by_cases h : (mergeWorkerBranch be wt.branch base).1.success
    · simp [h, ih]
    · simp [h]

/-- C2: over a supplied non-empty base branch, `mergeAllWorkerBranches`
returns exactly the per-branch merge results in registry order truncated at
(and including) the first failure; the outcome is never longer than the
registry listing; when every merge succeeds there is exactly one result per
registry entry; and the trace shows that only the attempted prefix of the
registry listing is ever touched — no branch after the first failing one is
attempted. -/
theorem mergeAllWorkerBranches_failfast
    (be : GitBackend) (registry : String → List Worktree)
    (teamName bb : String) (hbb : bb ≠ "") :
    (mergeAllWorkerBranches be registry teamName (some bb)).1 =
      some (truncAtFail ((registry teamName).map
        (fun wt => (mergeWorkerBranch be wt.branch bb).1))) ∧
    (truncAtFail ((registry teamName).map
        (fun wt => (mergeWorkerBranch be wt.branch bb).1))).length ≤
      (registry teamName).length ∧
    ((∀ wt ∈ registry teamName,
        (mergeWorkerBranch be wt.branch bb).1.success = true) →
      (mergeAllWorkerBranches be registry teamName (some bb)).1 =
        some ((registry teamName).map
          (fun wt => (mergeWorkerBranch be wt.branch bb).1))) ∧
    (mergeAllWorkerBranches be registry teamName (some bb)).2 =
      (((registry teamName).take
          (truncAtFail ((registry teamName).map
            (fun wt => (mergeWorkerBranch be wt.branch bb).1))).length).map
        (fun wt => (mergeWorkerBranch be wt.branch bb).2)).flatten := by
  have hlen : (truncAtFail ((registry teamName).map
      (fun wt => (mergeWorkerBranch be wt.branch bb).1))).length ≤
      (registry teamName).length := by
    have h := truncAtFail_length_le
      ((registry teamName).map (fun wt => (mergeWorkerBranch be wt.branch bb).1))
    simpa using h
  by_cases h0 : (registry teamName).length = 0
  · have hnil : registry teamName = [] := List.length_eq_zero.mp h0
    refine ⟨?_, hlen, fun _ => ?_, ?_⟩ <;>
      simp [mergeAllWorkerBranches, hnil, truncAtFail]
  · have hrb : resolveBase be (some bb) = (some bb, []) := by
      simp [resolveBase, hbb]
    have hunf : mergeAllWorkerBranches be registry teamName (some bb) =
        (some (mergeLoop be bb (registry teamName)).1,
         (mergeLoop be bb (registry teamName)).2) := by
      simp [mergeAllWorkerBranches, h0, hrb]
    refine ⟨?_, hlen, fun hall => ?_, ?_⟩
    · rw [hunf, mergeLoop_results]
    · rw [hunf, mergeLoop_results, truncAtFail_of_all_success]
      intro r hr
      rcases List.mem_map.mp hr with ⟨wt, hwt, rfl⟩
      exact hall wt hwt
    · rw [hunf, mergeLoop_trace, mergeLoop_results]

/-- C7: when the registry lists no worktrees for the team,
`mergeAllWorkerBranches` returns the empty sequence with an empty backend
trace — in particular the current-branch-name resolution
(`rev-parse --abbrev-ref HEAD`) is never invoked and no merge is
attempted. -/
theorem mergeAllWorkerBranches_empty_registry
    (be : GitBackend) (registry : String → List Worktree)
    (teamName : String) (baseBranch : Option String)
    (hreg : registry teamName = []) :
    mergeAllWorkerBranches be registry teamName baseBranch = (some [], []) ∧
    GitOp.revParseAbbrevHead ∉
      (mergeAllWorkerBranches be registry teamName baseBranch).2 := by
  have h : mergeAllWorkerBranches be registry teamName baseBranch =
      (some [], []) := by
    simp [mergeAllWorkerBranches, hreg]
  refine ⟨h, ?_⟩
  rw [h]
  simp

/-- C10: supplying the empty string as the optional base branch is
indistinguishable from omitting it — the JS `||` treats `""` as falsy and
falls back to resolving the currently checked-out branch. -/
theorem mergeAllWorkerBranches_empty_baseBranch
    (be : GitBackend) (registry : String → List Worktree) (teamName : String) :
    mergeAllWorkerBranches be registry teamName (some "") =
      mergeAllWorkerBranches be registry teamName none := by
  simp [mergeAllWorkerBranches, resolveBase]

/-- Witness for C1, on the spec's own example: base changed `README.md`,
worker changed `README.md` and `src/x.ts`; the detector returns
`[README.md]`. -/
theorem checkMergeConflicts_intersection_witness :
    beDemo.mergeBase "main" "team/w1" = some "abc123" ∧
    beDemo.diffNameOnly (jsTrim "abc123") "main" = some "README.md" ∧
    beDemo.diffNameOnly (jsTrim "abc123") "team/w1" = some "README.md\nsrc/x.ts" ∧
    parseChanged "README.md" = ["README.md"] ∧
    parseChanged "README.md\nsrc/x.ts" = ["README.md", "src/x.ts"] ∧
    ((checkMergeConflicts beDemo "team/w1" "main").1 =
        (["README.md", "src/x.ts"] : List String).filter
          (fun f => (["README.md"] : List String).contains f) ∧
     ((∀ f ∈ (["README.md", "src/x.ts"] : List String),
          f ∉ (["README.md"] : List String)) →
        (checkMergeConflicts beDemo "team/w1" "main").1 = [])) :=
  ⟨by decide, by decide, by decide, by decide, by decide,
   checkMergeConflicts_intersection beDemo "team/w1" "main" "abc123"
     "README.md" "README.md\nsrc/x.ts" ["README.md"] ["README.md", "src/x.ts"]
     (by decide) (by decide) (by decide) (by decide) (by decide)⟩

/-- Witness for C2, on the spec's scenario `[w1 succeeds, w2 fails, w3
would succeed]`: exactly two results come back and no backend command ever
touches `team/w3`. -/
theorem mergeAllWorkerBranches_failfast_witness :
    ("main" : String) ≠ "" ∧
    (mergeAllWorkerBranches beDemo regDemo "alpha" (some "main")).1 =
      some (truncAtFail ((regDemo "alpha").map
        (fun wt => (mergeWorkerBranch beDemo wt.branch "main").1))) ∧
    (mergeAllWorkerBranches beDemo regDemo "alpha" (some "main")).1 =
      some [{ workerName := "w1", branch := "team/w1", success := true,
              conflicts := [], mergeCommit := some "cafe1234" },
            { workerName := "w2", branch := "team/w2", success := false,
              conflicts := ["README.md"], mergeCommit := none }] ∧
    GitOp.merge (mergeMessage "team/w3" "main") "team/w3" ∉
      (mergeAllWorkerBranches beDemo regDemo "alpha" (some "main")).2 ∧
    GitOp.mergeBase "main" "team/w3" ∉
      (mergeAllWorkerBranches beDemo regDemo "alpha" (some "main")).2 :=
  ⟨by decide,
   (mergeAllWorkerBranches_failfast beDemo regDemo "alpha" "main" (by decide)).1,
   by decide, by decide, by decide⟩

/-- Witness for C3 at a successful merge: `mergeCommit` present and
non-empty, `conflicts` empty. -/
theorem mergeWorkerBranch_result_invariant_witness :
    (∀ s, beDemo.revParseHead = some s → jsTrim s ≠ "") ∧
    (((mergeWorkerBranch beDemo "team/w1" "main").1.success = true →
        (mergeWorkerBranch beDemo "team/w1" "main").1.conflicts = [] ∧
        ∃ c, (mergeWorkerBranch beDemo "team/w1" "main").1.mergeCommit = some c ∧
             c ≠ "") ∧
     ((mergeWorkerBranch beDemo "team/w1" "main").1.success = false →
        (mergeWorkerBranch beDemo "team/w1" "main").1.mergeCommit = none)) := by
  have hne : ∀ s, beDemo.revParseHead = some s → jsTrim s ≠ "" := by
    intro s h
    rw [show beDemo.revParseHead = some "cafe1234" from rfl] at h
    injection h with h2
    rw [← h2]
    decide
  exact ⟨hne, mergeWorkerBranch_result_invariant beDemo "team/w1" "main" hne⟩

/-- Witness for C4 at a failing checkout. -/
theorem mergeWorkerBranch_failure_cleanup_witness :
    (beDown.checkout "main" = false ∨
     beDown.merge (mergeMessage "team/w1" "main") "team/w1" = false) ∧
    (GitOp.mergeAbort ∈ (mergeWorkerBranch beDown "team/w1" "main").2 ∧
     (mergeWorkerBranch beDown "team/w1" "main").1.success = false ∧
     (mergeWorkerBranch beDown "team/w1" "main").1.mergeCommit = none ∧
     (mergeWorkerBranch beDown "team/w1" "main").1.conflicts =
       (checkMergeConflicts beDown "team/w1" "main").1 ∧
     (∀ x, mergeWorkerBranch { beDown with mergeAbort := x } "team/w1" "main" =
           mergeWorkerBranch beDown "team/w1" "main")) :=
  ⟨Or.inl rfl,
   mergeWorkerBranch_failure_cleanup beDown "team/w1" "main" (Or.inl rfl)⟩

/-- Witness for C5 at a failing merge-base query. -/
theorem checkMergeConflicts_backend_failure_witness :
    (beDown.mergeBase "main" "team/w1" = none ∨
     (∃ mb, beDown.mergeBase "main" "team/w1" = some mb ∧
        beDown.diffNameOnly (jsTrim mb) "main" = none) ∨
     (∃ mb braw, beDown.mergeBase "main" "team/w1" = some mb ∧
        beDown.diffNameOnly (jsTrim mb) "main" = some braw ∧
        beDown.diffNameOnly (jsTrim mb) "team/w1" = none)) ∧
    (checkMergeConflicts beDown "team/w1" "main").1 = [] :=
  ⟨Or.inl rfl,
   checkMergeConflicts_backend_failure beDown "team/w1" "main" (Or.inl rfl)⟩

/-- Witness for C6 at the merge-base query of a concrete detect call. -/
theorem checkMergeConflicts_readonly_witness :
    GitOp.mergeBase "main" "team/w1" ∈
      (checkMergeConflicts beDemo "team/w1" "main").2 ∧
    ((GitOp.mergeBase "main" "team/w1").mutatesTree = false ∧
     ((∃ a b, GitOp.mergeBase "main" "team/w1" = GitOp.mergeBase a b) ∨
      (∃ c r, GitOp.mergeBase "main" "team/w1" = GitOp.diffNameOnly c r))) :=
  ⟨by decide,
   checkMergeConflicts_readonly beDemo "team/w1" "main"
     (GitOp.mergeBase "main" "team/w1") (by decide)⟩

/-- Witness for C7: a team with no worktrees, over a backend whose
branch-resolution command would fail if it were invoked. -/
theorem mergeAllWorkerBranches_empty_registry_witness :
    regDemo "beta" = [] ∧
    (mergeAllWorkerBranches beDown regDemo "beta" none = (some [], []) ∧
     GitOp.revParseAbbrevHead ∉
       (mergeAllWorkerBranches beDown regDemo "beta" none).2) :=
  ⟨by decide,
   mergeAllWorkerBranches_empty_registry beDown regDemo "beta" none (by decide)⟩

/-- Witness for C9 at a backend whose HEAD resolution fails after a
successful checkout and merge. -/
theorem mergeWorkerBranch_success_iff_witness :
    beNoHead.checkout "main" = true ∧
    beNoHead.merge (mergeMessage "team/w1" "main") "team/w1" = true ∧
    beNoHead.revParseHead = none ∧
    ((mergeWorkerBranch beNoHead "team/w1" "main").1.success = false ∧
     (mergeWorkerBranch beNoHead "team/w1" "main").1.mergeCommit = none ∧
     GitOp.mergeAbort ∈ (mergeWorkerBranch beNoHead "team/w1" "main").2 ∧
     (mergeWorkerBranch beNoHead "team/w1" "main").1.conflicts =
       (checkMergeConflicts beNoHead "team/w1" "main").1) :=
  ⟨rfl, rfl, rfl,
   (mergeWorkerBranch_success_iff beNoHead "team/w1" "main").2 rfl rfl rfl⟩
